import Mathlib

/-!
Verification of `fbclock` (src/fbclock.c), a framebuffer clock daemon.

The mutable framebuffer is modelled by its write trace: a byte store is a
function `Int → Nat` (byte address to byte value), and every C function that
mutates the mapped buffer is embedded as the list of `(address, value)` byte
writes it performs, in program order.  `applyWrites` folds such a trace over a
store, later writes overriding earlier ones, exactly as sequential `memset`
calls do.

The glyph table `font8x8_basic` lives in the header `font8x8_basic.h`; all
definitions take the table as a parameter `font : Nat → Nat → Nat`
(`font ch row` is the row byte of glyph `ch`), so every theorem holds for the
actual table.
-/

/-- `#define FONT_WIDTH 8` (fbclock.c line 34). -/
def FONT_WIDTH : Nat := 8

/-- `#define FONT_HEIGHT 8` (fbclock.c line 35). -/
def FONT_HEIGHT : Nat := 8

/-- `#define MAX_TEXT_LEN 128` (fbclock.c line 36). -/
def MAX_TEXT_LEN : Nat := 128

/-- The byte writes performed by `memset(p, v, len)` where `p` is byte address
`start` into the mapped buffer: addresses `start, start+1, …, start+len-1`,
each receiving byte `v`. -/
def memsetWrites (start : Int) (v : Nat) (len : Nat) : List (Int × Nat) :=
  (List.range len).map (fun (k : Nat) => (start + (k : Int), v))

/-- Replay a list of byte writes over a byte store, in order; a later write to
an address overrides an earlier one. -/
def applyWrites (ws : List (Int × Nat)) (buf : Int → Nat) : Int → Nat :=
  ws.foldl (fun b w => fun a => if a = w.1 then w.2 else b a) buf

/-- The inner `while (char_bit < 256)` column loop of `draw_char`
(fbclock.c lines 112-121).  `char_bit` starts at 1 and doubles each pass;
each pass memsets `bytes_per_pixel` bytes at the cursor (0xff when the glyph
row byte has the bit set, 0 otherwise) and advances the cursor by
`bytes_per_pixel`.  Returns the accumulated writes and the final cursor.
(The C loop is entered only with `char_bit = 1`; the `0 < char_bit` guard
makes the recursion well-founded and is true on every actual iteration.) -/
def colLoop (font : Nat → Nat → Nat) (bpp : Nat) (ch row : Nat)
    (char_bit : Nat) (cursor : Int) : List (Int × Nat) × Int :=
  if h : 0 < char_bit ∧ char_bit < 256 then
    let v : Nat := if font ch row &&& char_bit ≠ 0 then 0xff else 0x00
    let rest := colLoop font bpp ch row (char_bit <<< 1) (cursor + (bpp : Int))
    (memsetWrites cursor v bpp ++ rest.1, rest.2)
  else ([], cursor)
termination_by 256 - char_bit
decreasing_by simp only [Nat.shiftLeft_eq, pow_one]; omega

/-- The outer `for (char_row = 0; char_row < FONT_HEIGHT; char_row++)` loop of
`draw_char` (fbclock.c lines 109-124): run the column loop for this row, then
advance the cursor by `line_length - FONT_WIDTH * bytes_per_pixel` and
continue with the next row. -/
def rowLoop (font : Nat → Nat → Nat) (stride : Nat) (bpp : Nat) (ch : Nat)
    (row : Nat) (cursor : Int) : List (Int × Nat) :=
  if row < FONT_HEIGHT then
    let c := colLoop font bpp ch row 1 cursor
    c.1 ++ rowLoop font stride bpp ch (row + 1)
      (c.2 + ((stride : Int) - (FONT_WIDTH : Int) * (bpp : Int)))
  else []
termination_by FONT_HEIGHT - row
decreasing_by simp only [FONT_HEIGHT] at *; omega

/-- `draw_char(clock, x, y, ch)` (fbclock.c lines 100-125), as its list of
byte writes into the mapped buffer.  `bytes_per_pixel` is
`bits_per_pixel / 8`; the start cursor is
`y * line_length + x * bytes_per_pixel`. -/
def draw_char (font : Nat → Nat → Nat) (stride : Nat) (bits_per_pixel : Nat)
    (x y : Int) (ch : Nat) : List (Int × Nat) :=
  let bpp := bits_per_pixel / 8
  rowLoop font stride bpp ch 0 (y * (stride : Int) + x * (bpp : Int))

/-- `clear_time(clock, y)` (fbclock.c lines 127-132), as its list of byte
writes: `memset` of `FONT_HEIGHT * line_length` zero bytes starting at byte
offset `y * line_length`. -/
def clear_time (stride : Nat) (y : Int) : List (Int × Nat) :=
  memsetWrites (y * (stride : Int)) 0 (FONT_HEIGHT * stride)

/-- The write pattern the specification describes for `draw_char`: for each of
the 8 rows and 8 columns, `bytes_per_pixel` consecutive bytes at
`y*stride + x*bpp + row*stride + col*bpp`, all 0xff when bit `col` (least
significant bit = leftmost pixel) of the glyph row byte is set, all 0 when
it is clear. -/
def drawCharSpec (font : Nat → Nat → Nat) (stride : Nat) (bpp : Nat)
    (x y : Int) (ch : Nat) : List (Int × Nat) :=
  (List.range FONT_HEIGHT).flatMap (fun (r : Nat) =>
    (List.range FONT_WIDTH).flatMap (fun (c : Nat) =>
      memsetWrites (y * (stride : Int) + x * (bpp : Int)
          + (r : Int) * (stride : Int) + (c : Int) * (bpp : Int))
        (if (font ch r).testBit c then 0xff else 0x00) bpp))

lemma colLoop_pow (font : Nat → Nat → Nat) (bpp ch row : Nat) :
    ∀ (n j : Nat), j + n = 8 → ∀ cursor : Int,
      colLoop font bpp ch row (2 ^ j) cursor =
        ((List.range n).flatMap (fun (c : Nat) =>
            memsetWrites (cursor + (c : Int) * (bpp : Int))
              (if font ch row &&& 2 ^ (j + c) ≠ 0 then 0xff else 0x00) bpp),
         cursor + (n : Int) * (bpp : Int)) := by
  intro n
  induction n with
  | zero =>
    intro j hj cursor
    have hj8 : j = 8 := by omega
    subst hj8
    rw [colLoop]
    norm_num
  | succ n ih =>
    intro j hj cursor
    rw [colLoop]
    have h1 : 0 < 2 ^ j := Nat.two_pow_pos j
    have h2 : (2 : Nat) ^ j < 256 := by
      calc (2 : Nat) ^ j < 2 ^ 8 := Nat.pow_lt_pow_right (by norm_num) (by omega)
        _ = 256 := by norm_num
    rw [dif_pos ⟨h1, h2⟩]
    have hshift : (2 : Nat) ^ j <<< 1 = 2 ^ (j + 1) := by
      simp [Nat.shiftLeft_eq, pow_succ]
    rw [hshift, ih (j + 1) (by omega)]
    rw [List.range_succ_eq_map]
    simp only [List.flatMap_cons, List.flatMap_map, Prod.mk.injEq]
    refine ⟨?_, by push_cast; ring⟩
    congr 1
    · norm_num
    · congr 1
      funext c
      have hexp : j + 1 + c = j + Nat.succ c := by omega
      have hcur : cursor + (bpp : Int) + (c : Int) * (bpp : Int)
          = cursor + ((Nat.succ c : Nat) : Int) * (bpp : Int) := by
        push_cast; ring
      rw [hexp, hcur]

lemma and_two_pow_ne_zero_iff (x c : Nat) :
    (x &&& 2 ^ c ≠ 0) ↔ x.testBit c = true := by
  rw [Nat.and_two_pow]
  cases h : x.testBit c <;> simp [h, Nat.pos_iff_ne_zero]

lemma rowLoop_spec (font : Nat → Nat → Nat) (stride bpp ch : Nat) :
    ∀ (n r : Nat), r + n = 8 → ∀ cursor : Int,
      rowLoop font stride bpp ch r cursor =
        (List.range n).flatMap (fun (i : Nat) =>
          (List.range 8).flatMap (fun (c : Nat) =>
            memsetWrites
              (cursor + (i : Int) * (stride : Int) + (c : Int) * (bpp : Int))
              (if (font ch (r + i)).testBit c then 0xff else 0x00) bpp)) := by
  intro n
  induction n with
  | zero =>
    intro r hr cursor
    have hr8 : r = 8 := by omega
    subst hr8
    rw [rowLoop]
    norm_num [FONT_HEIGHT]
  | succ n ih =>
    intro r hr cursor
    rw [rowLoop]
    rw [if_pos (show r < FONT_HEIGHT by simp only [FONT_HEIGHT]; omega)]
    have hcol := colLoop_pow font bpp ch r 8 0 (by omega) cursor
    simp only [pow_zero, zero_add, Nat.cast_ofNat] at hcol
    simp only [hcol]
    rw [ih (r + 1) (by omega)]
    have hcur : cursor + (8 : Int) * (bpp : Int)
        + ((stride : Int) - (FONT_WIDTH : Int) * (bpp : Int))
        = cursor + (stride : Int) := by
      simp only [FONT_WIDTH]; push_cast; ring
    rw [hcur]
    rw [show List.range (n + 1) = 0 :: (List.range n).map Nat.succ from
      List.range_succ_eq_map n]
    simp only [List.flatMap_cons, List.flatMap_map]
    congr 1
    · congr 1
      funext c
      norm_num [and_two_pow_ne_zero_iff]
    · congr 1
      funext i
      congr 1
      funext c
      have h1 : r + 1 + i = r + Nat.succ i := by omega
      have h2 : cursor + (stride : Int) + (i : Int) * (stride : Int)
          + (c : Int) * (bpp : Int)
          = cursor + ((Nat.succ i : Nat) : Int) * (stride : Int)
            + (c : Int) * (bpp : Int) := by
        push_cast; ring
      rw [h1, h2]

lemma draw_char_eq_spec (font : Nat → Nat → Nat) (stride bits : Nat)
    (x y : Int) (ch : Nat) :
    draw_char font stride bits x y ch = drawCharSpec font stride (bits / 8) x y ch := by
  rw [draw_char, drawCharSpec]
  rw [rowLoop_spec font stride (bits / 8) ch 8 0 (by omega)]
  simp only [FONT_HEIGHT, FONT_WIDTH, zero_add]

lemma applyWrites_memsetWrites (start : Int) (v : Nat) :
    ∀ (len : Nat) (buf : Int → Nat) (a : Int),
      applyWrites (memsetWrites start v len) buf a =
        if start ≤ a ∧ a < start + (len : Int) then v else buf a := by
  intro len
  induction len with
  | zero =>
    intro buf a
    have h0 : ¬(start ≤ a ∧ a < start + ((0 : Nat) : Int)) := by
      push_cast; omega
    rw [if_neg h0]
    simp [memsetWrites, applyWrites]
  | succ len ih =>
    intro buf a
    have hsplit : memsetWrites start v (len + 1)
        = memsetWrites start v len ++ [(start + (len : Int), v)] := by
      simp [memsetWrites, List.range_succ]
    rw [hsplit, applyWrites, List.foldl_append]
    simp only [List.foldl_cons, List.foldl_nil]
    by_cases ha : a = start + (len : Int)
    · have h2 : start ≤ a ∧ a < start + ((len + 1 : Nat) : Int) := by
        push_cast
        omega
      rw [if_pos ha, if_pos h2]
    · rw [if_neg ha]
      have hih := ih buf a
      rw [applyWrites] at hih
      rw [hih]
      by_cases hin : start ≤ a ∧ a < start + (len : Int)
      · have h2 : start ≤ a ∧ a < start + ((len + 1 : Nat) : Int) := by
          clear hih ih
          push_cast
          omega
        rw [if_pos hin, if_pos h2]
      · have h2 : ¬(start ≤ a ∧ a < start + ((len + 1 : Nat) : Int)) := by
          clear hih ih
          push_cast
          omega
        rw [if_neg hin, if_neg h2]

/-- The character-drawing loop of `run_clock` (fbclock.c lines 184-191):
`i` starts at `strlen(text) - 1` and counts down to 0; character `text[i]` is
drawn at horizontal pixel position `x + i * FONT_WIDTH`.  `drawTextFrom …
i` is the list of writes of the iterations from `i` down to 0, in order. -/
def drawTextFrom (font : Nat → Nat → Nat) (stride bits : Nat) (x y : Int)
    (text : List Nat) (i : Nat) : List (Int × Nat) :=
  match i with
  | 0 => draw_char font stride bits (x + (0 : Int) * (FONT_WIDTH : Int)) y
      (text.getD 0 0)
  | Nat.succ i =>
    draw_char font stride bits (x + ((i + 1 : Nat) : Int) * (FONT_WIDTH : Int)) y
      (text.getD (i + 1) 0) ++ drawTextFrom font stride bits x y text i

/-- The byte writes of one tick of `run_clock` (fbclock.c lines 178-191):
`clear_time` of the strip at `y = yres - FONT_HEIGHT - 2`, then the text
characters drawn right-to-left.  An empty text skips the drawing loop
(`i = strlen(text) - 1 = -1`). -/
def tickWrites (font : Nat → Nat → Nat) (stride bits : Nat) (yres x : Int)
    (text : List Nat) : List (Int × Nat) :=
  let y : Int := yres - (FONT_HEIGHT : Int) - 2
  clear_time stride y ++
    (if text.length = 0 then [] else
      drawTextFrom font stride bits x y text (text.length - 1))

/-- A sample glyph table used to instantiate universally quantified theorems
at concrete inputs. -/
def exFont : Nat → Nat → Nat := fun ch r => (ch + 3 * r) % 256

/-- C2: for every surface with bits-per-pixel in {8,16,24,32}, every
coordinate and every character code, the writes of `draw_char` are exactly
the 8×8 glyph-bit pixel writes: for row `r` and column `c` (bit `c` of the
row byte, least significant bit = leftmost pixel), `bytes_per_pixel`
consecutive bytes at `y*stride + x*bpp + r*stride + c*bpp`, all 0xff when
the bit is set and all 0x00 otherwise — the cursor advancing by
`bytes_per_pixel` per column and by `stride - 8*bytes_per_pixel` at the end
of each row. -/
theorem draw_char_writes_glyph_pattern (font : Nat → Nat → Nat)
    (stride bits : Nat) (x y : Int) (ch : Nat)
    (hbits : bits = 8 ∨ bits = 16 ∨ bits = 24 ∨ bits = 32) :
    draw_char font stride bits x y ch = drawCharSpec font stride (bits / 8) x y ch :=
  draw_char_eq_spec font stride bits x y ch

theorem draw_char_writes_glyph_pattern_witness :
    ((32 : Nat) = 8 ∨ (32 : Nat) = 16 ∨ (32 : Nat) = 24 ∨ (32 : Nat) = 32) ∧
    draw_char exFont 40 32 1 2 65 = drawCharSpec exFont 40 (32 / 8) 1 2 65 :=
  ⟨by decide, draw_char_writes_glyph_pattern exFont 40 32 1 2 65 (by decide)⟩

/-- C7: `clear_time` sets to zero exactly the `FONT_HEIGHT * stride = 8 *
stride` consecutive bytes starting at byte offset `y * stride`, and leaves
every other byte of the surface unchanged. -/
theorem clear_time_exact (stride : Nat) (y : Int) (buf : Int → Nat) (a : Int) :
    applyWrites (clear_time stride y) buf a =
      if y * (stride : Int) ≤ a ∧ a < y * (stride : Int) + 8 * (stride : Int)
      then 0 else buf a := by
  have h8 : ((FONT_HEIGHT * stride : Nat) : Int) = 8 * (stride : Int) := by
    simp only [FONT_HEIGHT]; push_cast; ring
  rw [clear_time, applyWrites_memsetWrites, h8]

/-- C9: clearing the same strip twice in a row yields the same surface
contents as clearing it once. -/
theorem clear_time_idempotent (stride : Nat) (y : Int) (buf : Int → Nat) :
    applyWrites (clear_time stride y) (applyWrites (clear_time stride y) buf)
      = applyWrites (clear_time stride y) buf := by
  funext a
  simp only [clear_time, applyWrites_memsetWrites]
  by_cases hin : y * (stride : Int) ≤ a
      ∧ a < y * (stride : Int) + ((FONT_HEIGHT * stride : Nat) : Int)
  · simp only [if_pos hin]
  · simp only [if_neg hin]

/-- The per-tick drift update of `run_clock` (fbclock.c lines 193-197):
`x += dx; if (x > 20 || x < 6) dx = -dx;`.  State is `(x, dx)`. -/
def driftStep (s : Int × Int) : Int × Int :=
  let x := s.1 + s.2
  if x > 20 ∨ x < 6 then (x, -s.2) else (x, s.2)

/-- The drift state after `n` ticks, starting from `x = 5, dx = 1`
(fbclock.c lines 173-174). -/
def driftState (n : Nat) : Int × Int :=
  driftStep^[n] (5, 1)

/-- Invariant characterising the reachable drift states. -/
def driftInv (s : Int × Int) : Prop :=
  (s.2 = 1 ∧ 5 ≤ s.1 ∧ s.1 ≤ 20) ∨ (s.2 = -1 ∧ 6 ≤ s.1 ∧ s.1 ≤ 21)

lemma driftInv_step {s : Int × Int} (h : driftInv s) : driftInv (driftStep s) := by
  rcases s with ⟨x, dx⟩
  simp only [driftInv] at h
  simp only [driftStep]
  by_cases hb : x + dx > 20 ∨ x + dx < 6
  · rw [if_pos hb]
    simp only [driftInv]
    omega
  · rw [if_neg hb]
    simp only [driftInv]
    omega

lemma driftInv_state (n : Nat) : driftInv (driftState n) := by
  induction n with
  | zero =>
    rw [driftState, Function.iterate_zero, id]
    rw [driftInv]
    norm_num
  | succ n ih =>
    rw [driftState, Function.iterate_succ_apply']
    exact driftInv_step ih

set_option maxRecDepth 4000 in
/-- C10: from the initial state `x = 5, dx = 1`, every state reached by the
per-tick update satisfies `5 ≤ x ≤ 21` and `dx ∈ {1, -1}`, and both extreme
values are actually reached: `x = 21` after 16 ticks and `x = 5` after 32
ticks. -/
theorem drift_reachable_band :
    (∀ n : Nat, 5 ≤ (driftState n).1 ∧ (driftState n).1 ≤ 21
      ∧ ((driftState n).2 = 1 ∨ (driftState n).2 = -1)) ∧
    (driftState 16).1 = 21 ∧ (driftState 32).1 = 5 := by
  refine ⟨?_, by decide, by decide⟩
  intro n
  have h := driftInv_state n
  rw [driftInv] at h
  omega

/-- C3 counterexample: after the 16th per-tick update the value of x is 21,
which violates the claimed inclusive bounds [6, 20]. -/
theorem drift_x_leaves_6_20 :
    ¬(6 ≤ (driftState 16).1 ∧ (driftState 16).1 ≤ 20) := by decide

/-- C3 amended: after every per-tick update `x` stays within the inclusive
bounds [5, 21] (not [6, 20]), and the update advances `x` by `dx` and flips
the sign of `dx` exactly when `(x > 20 ∨ x < 6)` holds after the advance. -/
theorem drift_band_and_flip :
    (∀ n : Nat, 5 ≤ (driftState n).1 ∧ (driftState n).1 ≤ 21) ∧
    (∀ x dx : Int,
      (driftStep (x, dx)).1 = x + dx ∧
      (driftStep (x, dx)).2 = if x + dx > 20 ∨ x + dx < 6 then -dx else dx) := by
  constructor
  · intro n
    have h := driftInv_state n
    rw [driftInv] at h
    omega
  · intro x dx
    simp only [driftStep]
    by_cases hb : x + dx > 20 ∨ x + dx < 6
    · simp [hb]
    · simp [hb]

lemma draw_char_addr_mem (font : Nat → Nat → Nat) (stride bits : Nat)
    (x y : Int) (ch : Nat) {w : Int × Nat}
    (hw : w ∈ draw_char font stride bits x y ch) :
    ∃ r : Nat, r < 8 ∧ ∃ c : Nat, c < 8 ∧ ∃ k : Nat, k < bits / 8 ∧
      w.1 = y * (stride : Int) + x * ((bits / 8 : Nat) : Int)
        + (r : Int) * (stride : Int) + (c : Int) * ((bits / 8 : Nat) : Int)
        + (k : Int) := by
  rw [draw_char_eq_spec, drawCharSpec] at hw
  simp only [FONT_HEIGHT, FONT_WIDTH, List.mem_flatMap, List.mem_range] at hw
  obtain ⟨r, hr, c, hc, hmem⟩ := hw
  rw [memsetWrites] at hmem
  obtain ⟨k, hkmem, heq⟩ := List.mem_map.1 hmem
  rw [List.mem_range] at hkmem
  refine ⟨r, hr, c, hc, k, hkmem, ?_⟩
  rw [← heq]

lemma drawTextFrom_mem (font : Nat → Nat → Nat) (stride bits : Nat) (x y : Int)
    (text : List Nat) :
    ∀ (i : Nat) {w : Int × Nat}, w ∈ drawTextFrom font stride bits x y text i →
      ∃ j : Nat, j ≤ i ∧
        w ∈ draw_char font stride bits (x + (j : Int) * (FONT_WIDTH : Int)) y
          (text.getD j 0) := by
  intro i
  induction i with
  | zero =>
    intro w hw
    refine ⟨0, Nat.le_refl 0, ?_⟩
    rw [drawTextFrom] at hw
    simpa using hw
  | succ i ih =>
    intro w hw
    rw [drawTextFrom] at hw
    rcases List.mem_append.1 hw with h | h
    · exact ⟨i + 1, Nat.le_refl _, h⟩
    · obtain ⟨j, hj, hmem⟩ := ih h
      exact ⟨j, by omega, hmem⟩

/-- C1 amended: the loop's write addresses stay inside `[0, smem_len)`
provided the queried geometry is adequate: the screen is at least 10 rows
tall, the buffer covers `yres` full rows of `stride` bytes, the drift
position is nonnegative, and every drawn character's 8-pixel-wide strip ends
within one row (`(x + i*8 + 8) * bytes_per_pixel ≤ stride`).  The code
itself checks none of this, so the unconditional claim fails (see the
counterexample). -/
theorem tick_writes_in_bounds (font : Nat → Nat → Nat)
    (stride bits smem_len : Nat) (yres x : Int) (text : List Nat)
    (h1 : 10 ≤ yres)
    (h2 : yres * (stride : Int) ≤ (smem_len : Int))
    (h3 : 0 ≤ x)
    (h4 : ∀ i : Nat, i < text.length →
      (x + (i : Int) * (FONT_WIDTH : Int) + (FONT_WIDTH : Int))
        * ((bits / 8 : Nat) : Int) ≤ (stride : Int)) :
    ∀ w ∈ tickWrites font stride bits yres x text,
      0 ≤ w.1 ∧ w.1 < (smem_len : Int) := by
  intro w hw
  simp only [tickWrites] at hw
  have hS0 : (0 : Int) ≤ (stride : Int) := Int.natCast_nonneg stride
  have hy : (0 : Int) ≤ yres - (FONT_HEIGHT : Int) - 2 := by
    simp only [FONT_HEIGHT]; push_cast; omega
  have hy8 : yres - (FONT_HEIGHT : Int) - 2 + 8 ≤ yres := by
    simp only [FONT_HEIGHT]; push_cast; omega
  set y : Int := yres - (FONT_HEIGHT : Int) - 2 with hydef
  have hyres : (y + 8) * (stride : Int) ≤ yres * (stride : Int) :=
    mul_le_mul_of_nonneg_right (by linarith) hS0
  have hexpy : (y + 8) * (stride : Int)
      = y * (stride : Int) + 8 * (stride : Int) := by ring
  have hyS : 0 ≤ y * (stride : Int) := mul_nonneg hy hS0
  rcases List.mem_append.1 hw with hcl | hdr
  · rw [clear_time, memsetWrites] at hcl
    obtain ⟨k, hk, heq⟩ := List.mem_map.1 hcl
    rw [List.mem_range] at hk
    have hw1 : w.1 = y * (stride : Int) + (k : Int) := by rw [← heq]
    simp only [FONT_HEIGHT] at hk
    have hkS : (k : Int) < 8 * (stride : Int) := by
      omega
    have hk0 : (0 : Int) ≤ (k : Int) := Int.natCast_nonneg k
    constructor
    · rw [hw1]; linarith
    · rw [hw1]; linarith
  · by_cases h0 : text.length = 0
    · rw [if_pos h0] at hdr
      simp at hdr
    · rw [if_neg h0] at hdr
      obtain ⟨j, hj, hmem⟩ :=
        drawTextFrom_mem font stride bits x y text (text.length - 1) hdr
      obtain ⟨r, hr, c, hc, k, hk, heq⟩ :=
        draw_char_addr_mem font stride bits
          (x + (j : Int) * (FONT_WIDTH : Int)) y (text.getD j 0) hmem
      have hjlen : j < text.length := by omega
      have h4j := h4 j hjlen
      simp only [FONT_WIDTH, Nat.cast_ofNat] at h4j heq
      have hB0 : (0 : Int) ≤ ((bits / 8 : Nat) : Int) := Int.natCast_nonneg _
      have hp0 : (0 : Int) ≤ x + (j : Int) * 8 := by
        have hj8 : (0 : Int) ≤ (j : Int) * 8 :=
          mul_nonneg (Int.natCast_nonneg _) (by norm_num)
        linarith
      have hpB : 0 ≤ (x + (j : Int) * 8) * ((bits / 8 : Nat) : Int) :=
        mul_nonneg hp0 hB0
      have hrS : (r : Int) * (stride : Int) ≤ 7 * (stride : Int) :=
        mul_le_mul_of_nonneg_right
          (by exact_mod_cast Nat.lt_succ_iff.mp hr) hS0
      have hrS0 : 0 ≤ (r : Int) * (stride : Int) :=
        mul_nonneg (Int.natCast_nonneg _) hS0
      have hcB : (c : Int) * ((bits / 8 : Nat) : Int)
          ≤ 7 * ((bits / 8 : Nat) : Int) :=
        mul_le_mul_of_nonneg_right
          (by exact_mod_cast Nat.lt_succ_iff.mp hc) hB0
      have hcB0 : 0 ≤ (c : Int) * ((bits / 8 : Nat) : Int) :=
        mul_nonneg (Int.natCast_nonneg _) hB0
      have hkB : (k : Int) < ((bits / 8 : Nat) : Int) := by exact_mod_cast hk
      have hk0 : (0 : Int) ≤ (k : Int) := Int.natCast_nonneg k
      have hexpp : (x + (j : Int) * 8 + 8) * ((bits / 8 : Nat) : Int)
          = (x + (j : Int) * 8) * ((bits / 8 : Nat) : Int)
            + 8 * ((bits / 8 : Nat) : Int) := by ring
      constructor
      · rw [heq]; linarith
      · rw [heq]; linarith

/-- The character codes of the fallback text `"Error getting time!"`
(fbclock.c line 152), one of the strings the render loop actually draws. -/
def errText : List Nat :=
  [69, 114, 114, 111, 114, 32, 103, 101, 116, 116,
   105, 110, 103, 32, 116, 105, 109, 101, 33]

/-- C1 counterexample: on a plausible queried geometry — 8 pixels wide at
8 bits per pixel (stride 8), 16 rows, buffer length 128 = yres * stride —
the very first tick (x = 5) drawing the 19-character fallback text produces
the byte write (197, 0xff), far beyond the buffer length 128.  The code
performs no bounds check, so the unqualified claim is false. -/
theorem tick_writes_out_of_bounds :
    ¬(∀ w ∈ tickWrites exFont 8 8 16 5 errText,
        0 ≤ w.1 ∧ w.1 < ((128 : Nat) : Int)) := by
  intro hall
  have h1 : tickWrites exFont 8 8 16 5 errText
      = clear_time 8 6 ++ drawTextFrom exFont 8 8 5 6 errText 18 := by
    rfl
  have h2 : drawTextFrom exFont 8 8 5 6 errText 18
      = draw_char exFont 8 8 149 6 33
        ++ drawTextFrom exFont 8 8 5 6 errText 17 := by
    rfl
  have hmem : ((197 : Int), (255 : Nat)) ∈ tickWrites exFont 8 8 16 5 errText := by
    rw [h1]
    apply List.mem_append_right
    rw [h2]
    apply List.mem_append_left
    rw [draw_char_eq_spec]
    decide
  have hbad := (hall _ hmem).2
  revert hbad
  decide

theorem tick_writes_in_bounds_witness :
    0 ≤ ((0 : Int), (0 : Nat)).1
      ∧ ((0 : Int), (0 : Nat)).1 < ((160 : Nat) : Int) :=
  tick_writes_in_bounds exFont 16 8 160 10 5 [65]
    (by decide) (by decide) (by decide) (by decide)
    ((0 : Int), (0 : Nat))
    (by
      have h1 : tickWrites exFont 16 8 10 5 [65]
          = clear_time 16 0 ++ drawTextFrom exFont 16 8 5 0 [65] 0 := by
        rfl
      rw [h1]
      exact List.mem_append_left _ (by decide))

/-- The digit-consuming phase of C `atoi`: accumulate decimal digits into
`acc`, stopping at the first non-digit character. -/
def atoiDigits (acc : Int) : List Char → Int
  | [] => acc
  | ch :: cs =>
    if ch.isDigit then atoiDigits (acc * 10 + ((ch.toNat - 48 : Nat) : Int)) cs
    else acc

/-- C `isspace` characters. -/
def isSpaceChar (ch : Char) : Bool :=
  ch = ' ' || ch = '\t' || ch = '\n' || ch = '\x0b' || ch = '\x0c' || ch = '\r'

/-- C `atoi`: skip leading whitespace, accept an optional sign, then consume
decimal digits; yields 0 when no digits are present. -/
def atoiChars : List Char → Int
  | [] => 0
  | ch :: cs =>
    if isSpaceChar ch then atoiChars cs
    else if ch = '-' then -(atoiDigits 0 cs)
    else if ch = '+' then atoiDigits 0 cs
    else atoiDigits 0 (ch :: cs)

/-- `fgets(buf, n+1, file)` on a readable stream: store at most `n`
characters of the stream's remaining contents, stopping after a newline. -/
def fgetsChars : Nat → List Char → List Char
  | 0, _ => []
  | _ + 1, [] => []
  | n + 1, ch :: cs => if ch = '\n' then [ch] else ch :: fgetsChars n cs

/-- `add_power_level_to_text(clock, text)` (fbclock.c lines 155-166).
`openResult` models `fopen`: `none` when the capacity file cannot be opened
(the function then returns with `text` untouched); `some readResult` when it
opens, where `readResult` models `fgets(capacity, 4, file)`: `some stream`
when the first line is readable (the 4-byte buffer then holds at most 3
stored characters), `none` when `fgets` fails and leaves the stack buffer
`capacity` uninitialized — the code ignores `fgets`'s result, so `atoi` then
reads the indeterminate bytes, modelled by the parameter `junk`.  In every
opened case `sprintf(text + strlen(text), "- %d%%", atoi(capacity))` appends
the suffix. -/
def add_power_level_to_text (openResult : Option (Option (List Char)))
    (junk : List Char) (text : String) : String :=
  match openResult with
  | none => text
  | some readResult =>
    let capacity : List Char :=
      match readResult with
      | some stream => fgetsChars 3 stream
      | none => junk
    text ++ "- " ++ toString (atoiChars capacity) ++ "%"

/-- `get_asctime(text)` (fbclock.c lines 134-153).  The three libc calls are
parameters: `now` models `time(NULL)` (`none` for `(time_t)-1`), `localtime`
and `asctime` model the conversions (`none` for `NULL`).  When all three
succeed the resulting string is copied into the text buffer; on any failure
the placeholder is copied instead. -/
def get_asctime {Tm : Type} (now : Option Int) (localtime : Int → Option Tm)
    (asctime : Tm → Option String) : String :=
  match now with
  | none => "Error getting time!"
  | some t =>
    match localtime t with
    | none => "Error getting time!"
    | some loc =>
      match asctime loc with
      | none => "Error getting time!"
      | some s => s

/-- The text composed by one tick of `run_clock` (fbclock.c lines 178-182):
`get_asctime` into the buffer, then, only when a capacity path was
configured (`clock->capacity != NULL`), `add_power_level_to_text`. -/
def composeTickText {Tm : Type} (now : Option Int)
    (localtime : Int → Option Tm) (asctime : Tm → Option String)
    (capacityConfigured : Bool) (openResult : Option (Option (List Char)))
    (junk : List Char) : String :=
  let text := get_asctime now localtime asctime
  if capacityConfigured then add_power_level_to_text openResult junk text
  else text

/-- C6: whenever the time cannot be resolved — `time` fails, or `localtime`
fails, or `asctime` fails (the chained lookups produce no string) — the
composed text is exactly the literal placeholder "Error getting time!";
`get_asctime` is total, so the tick never fails. -/
theorem get_asctime_error_placeholder {Tm : Type} (now : Option Int)
    (localtime : Int → Option Tm) (asctime : Tm → Option String)
    (hfail : (now.bind localtime).bind asctime = none) :
    get_asctime now localtime asctime = "Error getting time!" := by
  cases now with
  | none => rfl
  | some t =>
    cases hl : localtime t with
    | none => simp [get_asctime, hl]
    | some loc =>
      cases ha : asctime loc with
      | none => simp [get_asctime, hl, ha]
      | some s =>
        exfalso
        simp [hl, ha] at hfail

theorem get_asctime_error_placeholder_witness :
    ((Option.bind (none : Option Int) (fun _ => (none : Option Unit))).bind
        (fun _ => (none : Option String)) = none) ∧
    get_asctime (none : Option Int) (fun _ => (none : Option Unit))
        (fun _ => (none : Option String)) = "Error getting time!" :=
  ⟨rfl, get_asctime_error_placeholder none (fun _ => none) (fun _ => none) rfl⟩

/-- C4: when the capacity file cannot be opened the text is untouched, but
when it opens and `fgets` cannot read the first line (e.g. an empty file)
the code still appends a suffix computed from the uninitialized buffer
(here with indeterminate contents modelled as empty, giving "- 0%"): the
claim's "first line cannot be read implies the suffix is omitted" is
violated by the code. -/
theorem add_power_level_fgets_failure_appends :
    add_power_level_to_text none [] "Thu Jan  1 00:00:00 1970"
      = "Thu Jan  1 00:00:00 1970" ∧
    add_power_level_to_text (some none) [] "Thu Jan  1 00:00:00 1970"
      = "Thu Jan  1 00:00:00 1970- 0%" := by
  constructor <;> decide

lemma atoiDigits_bound : ∀ (l : List Char) (acc : Int), 0 ≤ acc →
    0 ≤ atoiDigits acc l
      ∧ atoiDigits acc l ≤ (acc + 1) * 10 ^ l.length - 1 := by
  intro l
  induction l with
  | nil =>
    intro acc hacc
    rw [atoiDigits]
    simp only [List.length_nil, pow_zero, mul_one]
    omega
  | cons ch cs ih =>
    intro acc hacc
    rw [atoiDigits]
    by_cases hd : ch.isDigit
    · rw [if_pos hd]
      have hd57 : 48 ≤ ch.toNat ∧ ch.toNat ≤ 57 := by
        simpa [Char.isDigit] using hd
      have hdig : ((ch.toNat - 48 : Nat) : Int) ≤ 9 := by omega
      have hdig0 : (0 : Int) ≤ ((ch.toNat - 48 : Nat) : Int) :=
        Int.natCast_nonneg _
      have hacc10 : (0 : Int) ≤ acc * 10 := by linarith
      have hacc' : 0 ≤ acc * 10 + ((ch.toNat - 48 : Nat) : Int) := by linarith
      obtain ⟨ih0, ih1⟩ := ih (acc * 10 + ((ch.toNat - 48 : Nat) : Int)) hacc'
      refine ⟨ih0, ?_⟩
      have hpow : (0 : Int) ≤ 10 ^ cs.length := by positivity
      have hstep : (acc * 10 + ((ch.toNat - 48 : Nat) : Int) + 1)
            * 10 ^ cs.length
          ≤ (acc + 1) * 10 ^ (cs.length + 1) := by
        have hmul : acc * 10 + ((ch.toNat - 48 : Nat) : Int) + 1
            ≤ (acc + 1) * 10 := by linarith
        calc (acc * 10 + ((ch.toNat - 48 : Nat) : Int) + 1) * 10 ^ cs.length
            ≤ ((acc + 1) * 10) * 10 ^ cs.length :=
              mul_le_mul_of_nonneg_right hmul hpow
          _ = (acc + 1) * 10 ^ (cs.length + 1) := by ring
      have hlen : (ch :: cs).length = cs.length + 1 := rfl
      rw [hlen]
      linarith
    · rw [if_neg hd]
      refine ⟨hacc, ?_⟩
      have hpow1 : (1 : Int) ≤ 10 ^ (ch :: cs).length := one_le_pow₀ (by norm_num)
      have hmono : (acc + 1) * 1 ≤ (acc + 1) * 10 ^ (ch :: cs).length :=
        mul_le_mul_of_nonneg_left hpow1 (by linarith)
      linarith

lemma atoiDigits_zero_bound (l : List Char) :
    0 ≤ atoiDigits 0 l ∧ atoiDigits 0 l ≤ 10 ^ l.length - 1 := by
  obtain ⟨h0, h1⟩ := atoiDigits_bound l 0 le_rfl
  have he : ((0 : Int) + 1) * 10 ^ l.length - 1 = 10 ^ l.length - 1 := by ring
  rw [he] at h1
  exact ⟨h0, h1⟩

lemma atoiChars_bound : ∀ (l : List Char), l.length ≤ 3 →
    -99 ≤ atoiChars l ∧ atoiChars l ≤ 999 := by
  intro l
  induction l with
  | nil =>
    intro
    rw [atoiChars]
    norm_num
  | cons ch cs ih =>
    intro hlen
    have hcs2 : cs.length ≤ 2 := by
      simpa using hlen
    have hpowcs : (10 : Int) ^ cs.length ≤ 10 ^ 2 :=
      pow_le_pow_right₀ (by norm_num) hcs2
    have hpow2 : ((10 : Int) ^ 2 : Int) = 100 := by norm_num
    obtain ⟨hz0, hz1⟩ := atoiDigits_zero_bound cs
    rw [atoiChars]
    by_cases hsp : isSpaceChar ch
    · rw [if_pos hsp]
      exact ih (by omega)
    · rw [if_neg hsp]
      by_cases hminus : ch = '-'
      · rw [if_pos hminus]
        constructor
        · have : atoiDigits 0 cs ≤ 99 := by linarith
          linarith
        · linarith
      · rw [if_neg hminus]
        by_cases hplus : ch = '+'
        · rw [if_pos hplus]
          constructor
          · linarith
          · have : atoiDigits 0 cs ≤ 99 := by linarith
            linarith
        · rw [if_neg hplus]
          obtain ⟨hz0', hz1'⟩ := atoiDigits_zero_bound (ch :: cs)
          have hlcons : (ch :: cs).length ≤ 3 := hlen
          have hpowl : (10 : Int) ^ (ch :: cs).length ≤ 10 ^ 3 :=
            pow_le_pow_right₀ (by norm_num) hlcons
          have hpow3 : ((10 : Int) ^ 3 : Int) = 1000 := by norm_num
          constructor
          · linarith
          · linarith

lemma fgetsChars_length : ∀ (n : Nat) (l : List Char),
    (fgetsChars n l).length ≤ n := by
  intro n
  induction n with
  | zero =>
    intro l
    rw [fgetsChars]
    exact Nat.le_refl 0
  | succ n ih =>
    intro l
    cases l with
    | nil =>
      rw [fgetsChars]
      exact Nat.zero_le _
    | cons ch cs =>
      rw [fgetsChars]
      by_cases h : ch = '\n'
      · rw [if_pos h]
        simp
      · rw [if_neg h]
        simpa using ih cs

lemma int_repr_len_le_three (n : Int) (h1 : -99 ≤ n) (h2 : n ≤ 999) :
    (toString n).length ≤ 3 := by
  have ht : toString n = Int.repr n := rfl
  rw [ht]
  cases n with
  | ofNat m =>
    have hrepr : Int.repr (Int.ofNat m) = Nat.repr m := rfl
    rw [hrepr]
    rw [Int.ofNat_eq_natCast] at h2
    exact Nat.repr_length m 3 (by norm_num) (by omega)
  | negSucc m =>
    have hrepr : Int.repr (Int.negSucc m) = "-" ++ Nat.repr (m + 1) := rfl
    rw [hrepr, String.length_append]
    have hone : ("-" : String).length = 1 := rfl
    rw [Int.negSucc_eq] at h1
    have hm : m + 1 < 10 ^ 2 := by omega
    have := Nat.repr_length (m + 1) 2 (by norm_num) hm
    omega

/-- C8: on every tick the composed status text — timestamp, the error
placeholder, or timestamp plus capacity suffix — has length at most
`MAX_TEXT_LEN - 1 = 127`, so together with the terminator it fits the fixed
128-byte buffer.  The hypotheses record the libc contracts the code relies
on: `asctime` output is at most 25 characters (POSIX fixed format,
newline included), and the 4-byte `capacity` buffer holds at most 3
characters before its terminator (guaranteed by `fgets(capacity, 4, _)` on
a successful read, assumed of the uninitialized buffer contents `junk` on a
failed one). -/
theorem composed_text_bounded {Tm : Type} (now : Option Int)
    (localtime : Int → Option Tm) (asctime : Tm → Option String)
    (capConf : Bool) (openResult : Option (Option (List Char)))
    (junk : List Char)
    (hasc : ∀ tm s, asctime tm = some s → s.length ≤ 25)
    (hjunk : junk.length ≤ 3) :
    (composeTickText now localtime asctime capConf openResult junk).length
      ≤ MAX_TEXT_LEN - 1 := by
  have htime : (get_asctime now localtime asctime).length ≤ 25 := by
    cases now with
    | none =>
      simp only [get_asctime]
      decide
    | some t =>
      cases hl : localtime t with
      | none =>
        simp only [get_asctime, hl]
        decide
      | some loc =>
        cases ha : asctime loc with
        | none =>
          simp only [get_asctime, hl, ha]
          decide
        | some s =>
          simp only [get_asctime, hl, ha]
          exact hasc loc s ha
  rw [composeTickText]
  simp only [MAX_TEXT_LEN]
  cases capConf with
  | false =>
    simp only [Bool.false_eq_true, if_false]
    omega
  | true =>
    simp only [if_true]
    rw [add_power_level_to_text.eq_def]
    cases openResult with
    | none =>
      dsimp only
      omega
    | some readResult =>
      have hcap : (match readResult with
          | some stream => fgetsChars 3 stream
          | none => junk).length ≤ 3 := by
        cases readResult with
        | some stream => exact fgetsChars_length 3 stream
        | none => exact hjunk
      obtain ⟨hlo, hhi⟩ := atoiChars_bound _ hcap
      have hrepr := int_repr_len_le_three _ hlo hhi
      simp only [String.length_append]
      have hd : ("- " : String).length = 2 := rfl
      have hp : ("%" : String).length = 1 := rfl
      omega

theorem composed_text_bounded_witness :
    (@composeTickText Unit none (fun _ => none) (fun _ => none) true
      (some none) []).length ≤ MAX_TEXT_LEN - 1 :=
  composed_text_bounded none (fun _ => none) (fun _ => none) true (some none)
    [] (fun tm s h => Option.noConfusion h) (by decide)

/-- `handle_signal(sig)` (fbclock.c lines 206-209): the handler does nothing
but clear the global `g_running` flag. -/
def handle_signal (sig : Int) (g_running : Bool) : Bool := false

/-- Observable events of `run_clock`: the per-tick actions (compose text,
clear the strip, draw the text, sleep) and the two teardown actions. -/
inductive ClockEv
  | compose (n : Nat)
  | clearStrip (n : Nat)
  | drawText (n : Nat)
  | sleepTick (n : Nat)
  | munmapDev
  | closeDev
deriving DecidableEq

/-- The four actions of one complete loop iteration of `run_clock`
(fbclock.c lines 178-199), in program order. -/
def tickEvents (n : Nat) : List ClockEv :=
  [ClockEv.compose n, ClockEv.clearStrip n, ClockEv.drawText n,
   ClockEv.sleepTick n]

/-- The control flow of `run_clock` (fbclock.c lines 177-204) as an event
trace.  `signals n = true` means the shutdown signal arrives during tick
`n`; whenever it arrives within the tick, the handler only clears the
`g_running` flag, which the `while (g_running)` test observes at the top of
the next iteration, so the tick always runs to completion.  `fuel` bounds
the number of iterations modelled: the result is `none` when the loop is
still running after `fuel` ticks, and otherwise the complete trace — the
executed ticks followed by `munmap` then `close` on the single exit path
(fbclock.c lines 202-203). -/
def runClock (signals : Nat → Bool) : Nat → Nat → Bool → Option (List ClockEv)
  | 0, _, g_running =>
    if g_running then none else some [ClockEv.munmapDev, ClockEv.closeDev]
  | fuel + 1, n, g_running =>
    if g_running then
      let g' := if signals n then handle_signal 2 g_running else g_running
      (runClock signals fuel (n + 1) g').map (fun evs => tickEvents n ++ evs)
    else some [ClockEv.munmapDev, ClockEv.closeDev]

lemma runClock_stopped (signals : Nat → Bool) :
    ∀ (fuel n : Nat), runClock signals fuel n false
      = some [ClockEv.munmapDev, ClockEv.closeDev] := by
  intro fuel n
  cases fuel <;> rfl

lemma runClock_trace (signals : Nat → Bool) :
    ∀ (k n fuel : Nat), (∀ j, j < k → signals (n + j) = false) →
      signals (n + k) = true → k + 1 ≤ fuel →
      runClock signals fuel n true
        = some (((List.range (k + 1)).map (fun j => n + j)).flatMap tickEvents
            ++ [ClockEv.munmapDev, ClockEv.closeDev]) := by
  intro k
  induction k with
  | zero =>
    intro n fuel hfirst hk hfuel
    obtain ⟨f, rfl⟩ : ∃ f, fuel = f + 1 := ⟨fuel - 1, by omega⟩
    rw [runClock, if_pos rfl]
    simp only [Nat.add_zero] at hk
    rw [hk]
    simp only [if_true, handle_signal]
    rw [runClock_stopped]
    rw [Option.map_some']
    congr 1
  | succ k ih =>
    intro n fuel hfirst hk hfuel
    obtain ⟨f, rfl⟩ : ∃ f, fuel = f + 1 := ⟨fuel - 1, by omega⟩
    rw [runClock, if_pos rfl]
    have hs0 : signals n = false := by
      have := hfirst 0 (by omega)
      simpa using this
    rw [hs0]
    simp only [Bool.false_eq_true, if_false]
    have hfirst' : ∀ j, j < k → signals (n + 1 + j) = false := by
      intro j hj
      have heq : n + 1 + j = n + (j + 1) := by omega
      rw [heq]
      exact hfirst (j + 1) (by omega)
    have hk' : signals (n + 1 + k) = true := by
      have heq : n + 1 + k = n + (k + 1) := by omega
      rw [heq]
      exact hk
    rw [ih (n + 1) f hfirst' hk' (by omega)]
    rw [Option.map_some']
    congr 1
    have hlist : ((List.range (k + 2)).map (fun j => n + j)).flatMap tickEvents
        = tickEvents n
          ++ ((List.range (k + 1)).map (fun j => n + 1 + j)).flatMap
              tickEvents := by
      rw [show List.range (k + 2) = 0 :: (List.range (k + 1)).map Nat.succ from
        List.range_succ_eq_map (k + 1)]
      simp only [List.map_cons, List.map_map, List.flatMap_cons]
      have hmap : (List.range (k + 1)).map ((fun j => n + j) ∘ Nat.succ)
          = (List.range (k + 1)).map (fun j => n + 1 + j) :=
        List.map_congr_left (fun a _ => by simp only [Function.comp]; omega)
      rw [hmap]
      congr 1
    rw [hlist, List.append_assoc]

lemma count_munmap_ticks (l : List Nat) :
    (l.flatMap tickEvents).count ClockEv.munmapDev = 0 := by
  rw [List.count_eq_zero]
  intro hmem
  rw [List.mem_flatMap] at hmem
  obtain ⟨n, _, hn⟩ := hmem
  simp [tickEvents] at hn

lemma count_close_ticks (l : List Nat) :
    (l.flatMap tickEvents).count ClockEv.closeDev = 0 := by
  rw [List.count_eq_zero]
  intro hmem
  rw [List.mem_flatMap] at hmem
  obtain ⟨n, _, hn⟩ := hmem
  simp [tickEvents] at hn

/-- C5: when the first shutdown signal arrives during tick `k` (and the
handler merely clears the flag, observed at the top of the next iteration),
`run_clock`'s trace consists of ticks 0 … k, each run to completion —
the loop never exits mid-tick — followed on the single exit path by
exactly one `munmap` and exactly one `close`, together at the end. -/
theorem run_clock_signal_shutdown (signals : Nat → Bool) (k fuel : Nat)
    (hfirst : ∀ j, j < k → signals j = false)
    (hk : signals k = true) (hfuel : k + 1 ≤ fuel) :
    runClock signals fuel 0 true
      = some ((List.range (k + 1)).flatMap tickEvents
          ++ [ClockEv.munmapDev, ClockEv.closeDev])
    ∧ ((List.range (k + 1)).flatMap tickEvents
        ++ [ClockEv.munmapDev, ClockEv.closeDev]).count ClockEv.munmapDev = 1
    ∧ ((List.range (k + 1)).flatMap tickEvents
        ++ [ClockEv.munmapDev, ClockEv.closeDev]).count ClockEv.closeDev
          = 1 := by
  refine ⟨?_, ?_, ?_⟩
  · have := runClock_trace signals k 0 fuel
      (by intro j hj; simpa using hfirst j hj) (by simpa using hk) hfuel
    rw [this]
    congr 2
    have hid : (List.range (k + 1)).map (fun j => 0 + j)
        = List.range (k + 1) := by
      have h1 : (List.range (k + 1)).map (fun j => 0 + j)
          = (List.range (k + 1)).map id :=
        List.map_congr_left (fun a _ => by simp)
      rw [h1, List.map_id]
    rw [hid]
  · rw [List.count_append, count_munmap_ticks]
    decide
  · rw [List.count_append, count_close_ticks]
    decide

theorem run_clock_signal_shutdown_witness :
    runClock (fun n => decide (n = 1)) 3 0 true
      = some ((List.range 2).flatMap tickEvents
          ++ [ClockEv.munmapDev, ClockEv.closeDev])
    ∧ ((List.range 2).flatMap tickEvents
        ++ [ClockEv.munmapDev, ClockEv.closeDev]).count ClockEv.munmapDev = 1
    ∧ ((List.range 2).flatMap tickEvents
        ++ [ClockEv.munmapDev, ClockEv.closeDev]).count ClockEv.closeDev = 1 :=
  run_clock_signal_shutdown (fun n => decide (n = 1)) 1 3
    (by decide) (by decide) (by decide)
